import Mathlib

/-!
Verification of the streaming speech-capture core of the voice application
(`stt_lib.cpp` / `whisper_stream.cpp`).  The C++ code is shallowly embedded:
audio samples and energies are modelled as rationals, sample buffers as lists,
and each stateful routine as an explicit state-passing function.  The external
band-limited decision `vad_simple` (from the whisper.cpp commons, an external
collaborator of this repository) is abstracted as a function parameter taking
the audio window and the current threshold.
-/

namespace Stt

/-! ## Definitions translated from the source -/

/-- State of `AdaptiveVAD` (stt_lib.cpp lines 51-108): the self-tuning decision
threshold and the bounded history of recent per-window energies. -/
structure VADState where
  threshold : ℚ
  recent_energies : List ℚ
deriving DecidableEq

/-- `min_threshold` field, initialized to `0.3f` in the constructor. -/
def min_threshold : ℚ := 3/10

/-- `max_threshold` field, initialized to `0.8f` in the constructor. -/
def max_threshold : ℚ := 4/5

/-- `history_size` field, default `50` in the constructor. -/
def history_size : ℕ := 50

/-- `adaptation_rate` field, initialized to `0.1f` in the constructor. -/
def adaptation_rate : ℚ := 1/10

/-- Insert an element into a sorted list, keeping it sorted (helper for the
embedding of `std::sort`). -/
def insertSorted (x : ℚ) : List ℚ → List ℚ
  | [] => [x]
  | y :: ys => if x ≤ y then x :: y :: ys else y :: insertSorted x ys

/-- Embedding of `std::sort(sorted.begin(), sorted.end())` on a vector of
rationals: insertion sort, producing the nondecreasing rearrangement. -/
def sortList : List ℚ → List ℚ
  | [] => []
  | x :: xs => insertSorted x (sortList xs)

/-- Mean squared energy computed by `AdaptiveVAD::detect` (stt_lib.cpp lines
90-94): `energy += sample * sample` over the window, then `energy /= size`. -/
def energy_of (audio : List ℚ) : ℚ :=
  (audio.foldl (fun acc x => acc + x * x) 0) / (audio.length : ℚ)

/-- History update of `AdaptiveVAD::detect` (stt_lib.cpp lines 97-100):
`push_back(energy)` then, if the size exceeds `history_size`, erase the
front (oldest) entry. -/
def record_energy (h : List ℚ) (e : ℚ) : List ℚ :=
  let h2 := h ++ [e]
  if history_size < h2.length then h2.drop 1 else h2

/-- `AdaptiveVAD::adapt_threshold` (stt_lib.cpp lines 60-75): once at least 10
energies are recorded, re-tune the threshold from index-based quartiles of the
sorted history, by an exponential moving average clamped to
`[min_threshold, max_threshold]`. -/
def adapt_threshold (s : VADState) : VADState :=
  if s.recent_energies.length < 10 then s
  else
    let sorted := sortList s.recent_energies
    let median := sorted.getD (sorted.length / 2) 0
    let q1 := sorted.getD (sorted.length / 4) 0
    let q3 := sorted.getD (3 * sorted.length / 4) 0
    let target := 1/2 + (median - q1) / (q3 - q1 + 1/10000) * (3/10)
    let t := s.threshold * (1 - adaptation_rate) + target * adaptation_rate
    { s with threshold := max min_threshold (min max_threshold t) }

/-- `AdaptiveVAD::detect` (stt_lib.cpp lines 84-105).  The external decision
`::vad_simple(audio, rate, ms, threshold, freq, false)` is abstracted as
`vadFn audio threshold` (sample rate, window and cutoff are fixed per call).
The decision is computed first, with the pre-call threshold; then the mean
squared energy is recorded and the threshold adapted whenever the energy
exceeds `energy_thold`. -/
def detect (vadFn : List ℚ → ℚ → Bool) (energy_thold : ℚ) (s : VADState)
    (audio : List ℚ) : Bool × VADState :=
  let is_speech := vadFn audio s.threshold
  let energy := energy_of audio
  if energy_thold < energy then
    (is_speech,
      adapt_threshold { s with recent_energies := record_energy s.recent_energies energy })
  else
    (is_speech, s)

/-- Feeding a sequence of windows through `AdaptiveVAD::detect`, collecting the
returned booleans and threading the mutable state. -/
def detect_run (vadFn : List ℚ → ℚ → Bool) (eth : ℚ) :
    VADState → List (List ℚ) → List Bool × VADState
  | s, [] => ([], s)
  | s, w :: ws =>
    let r := detect vadFn eth s w
    let rest := detect_run vadFn eth r.2 ws
    (r.1 :: rest.1, rest.2)

/-- A `detect` call performs an adaptation step exactly when the window energy
exceeds the energy floor and the recorded history then holds at least 10
entries (stt_lib.cpp lines 61, 96). -/
def adaptation_fires (eth : ℚ) (s : VADState) (w : List ℚ) : Bool :=
  decide (eth < energy_of w) &&
    decide (10 ≤ (record_energy s.recent_energies (energy_of w)).length)

/-- Clamp `x` to the interval `[lo, hi]`. -/
def clamp (lo hi x : ℚ) : ℚ := max lo (min hi x)

/-- The behaviour of `AdaptiveVAD::detect` as the specification words it
(spec §4.1, claim C3), written independently of the source for comparison:
mean squared energy; exactly when it exceeds the floor, append it to the
history keeping only the newest 50 entries and, once at least 10 entries
exist, set the threshold to
`clamp((1-0.1)·old + 0.1·(0.5 + 0.3·(median-q1)/(q3-q1+1e-4)), 0.3, 0.8)`
with `median`, `q1`, `q3` the sorted entries at indices `n/2`, `n/4`,
`3n/4`; otherwise leave history and threshold unchanged. -/
def detect_according_to_spec (vadFn : List ℚ → ℚ → Bool) (eth : ℚ)
    (s : VADState) (w : List ℚ) : Bool × VADState :=
  let e := ((w.map fun x => x * x).sum) / (w.length : ℚ)
  if eth < e then
    let h := s.recent_energies ++ [e]
    let kept := h.drop (h.length - 50)
    let n := kept.length
    let t :=
      if 10 ≤ n then
        let sorted := sortList kept
        let median := sorted.getD (n / 2) 0
        let q1 := sorted.getD (n / 4) 0
        let q3 := sorted.getD (3 * n / 4) 0
        clamp (3/10) (4/5)
          ((1 - 1/10) * s.threshold +
            (1/10) * (1/2 + (3/10) * (median - q1) / (q3 - q1 + 1/10000)))
      else s.threshold
    (vadFn w s.threshold, ⟨t, kept⟩)
  else
    (vadFn w s.threshold, s)

/-- Window construction of the fixed-step branch of `STTStream::listen_for`
(stt_lib.cpp lines 398-413): take the last
`min(|pcmf32_old|, max(0, n_samples_keep + n_samples_len - |pcmf32_new|))`
samples of the previous tail, followed by the freshly drained chunk.  The
natural-number subtraction here truncates at zero, exactly like the source's
`std::max(0, ...)`. -/
def build_window (old new : List ℚ) (n_samples_keep n_samples_len : ℕ) : List ℚ :=
  let n_samples_take := min old.length (n_samples_keep + n_samples_len - new.length)
  old.drop (old.length - n_samples_take) ++ new

/-- Observable outcome of `process_audio_with_retry`: whether it reported
success, how many engine calls were made, and the list of backoff sleeps
(milliseconds) performed between consecutive attempts. -/
structure RetryResult where
  success : Bool
  calls : ℕ
  sleeps : List ℕ
deriving DecidableEq

/-- Record a backoff sleep of `n` milliseconds before the remaining attempts. -/
def with_sleep (n : ℕ) (r : RetryResult) : RetryResult :=
  ⟨r.success, r.calls, n :: r.sleeps⟩

/-- The retry loop of `process_audio_with_retry` (stt_lib.cpp lines 181-192),
started at attempt index `attempt`.  The engine call
`whisper_full(ctx, wparams, data, size)` is abstracted as `engine attempt`,
giving its integer result code at each attempt.  The
`100 * (attempt + 1)` millisecond sleep happens after a failed attempt only
when it is not the last one (`attempt < max_attempts - 1`). -/
def retry_loop (engine : ℕ → ℤ) (max_attempts : ℕ) (attempt : ℕ) : RetryResult :=
  if attempt < max_attempts then
    if engine attempt = 0 then ⟨true, attempt + 1, []⟩
    else if attempt < max_attempts - 1 then
      with_sleep (100 * (attempt + 1)) (retry_loop engine max_attempts (attempt + 1))
    else retry_loop engine max_attempts (attempt + 1)
  else ⟨false, attempt, []⟩
termination_by max_attempts - attempt

/-- `process_audio_with_retry` (stt_lib.cpp lines 177-195): run the retry loop
from attempt 0. -/
def process_audio_with_retry (engine : ℕ → ℤ) (max_attempts : ℕ) : RetryResult :=
  retry_loop engine max_attempts 0

/-- `prune_context_tokens` (stt_lib.cpp lines 197-204): when the token count
exceeds the bound, erase the oldest excess tokens from the front. -/
def prune_context_tokens (tokens : List ℤ) (max_tokens : ℕ) : List ℤ :=
  if tokens.length ≤ max_tokens then tokens
  else tokens.drop (tokens.length - max_tokens)

/-- Mutable state of `STTStream::Impl` relevant to pause/resume (stt_lib.cpp
lines 208-233): the three rolling sample buffers, the context tokens, the
capture device's internal queue together with its running flag, and the
`paused` flag. -/
structure StreamState where
  pcmf32 : List ℚ
  pcmf32_old : List ℚ
  pcmf32_new : List ℚ
  prompt_tokens : List ℤ
  audio_queue : List ℚ
  audio_running : Bool
  paused : Bool
deriving DecidableEq

/-- `STTStream::pause` (stt_lib.cpp lines 553-567): set `paused`, stop the
capture device and clear its queue, and clear the three sample buffers. -/
def pause_stream (s : StreamState) : StreamState :=
  { s with paused := true, audio_running := false, audio_queue := [],
           pcmf32 := [], pcmf32_old := [], pcmf32_new := [] }

/-- `STTStream::resume` (stt_lib.cpp lines 569-583): clear the capture queue,
restart the device, clear the three sample buffers again, and clear `paused`. -/
def resume_stream (s : StreamState) : StreamState :=
  { s with audio_queue := [], audio_running := true,
           pcmf32 := [], pcmf32_old := [], pcmf32_new := [], paused := false }

/-- `std::tolower` on one character under the C locale (ASCII): map `A`-`Z`
to the corresponding lowercase letter, leave everything else unchanged. -/
def to_lower_char (c : Char) : Char :=
  if 'A' ≤ c ∧ c ≤ 'Z' then Char.ofNat (c.toNat + 32) else c

/-- `to_lowercase` (stt_lib.cpp lines 164-169): `std::transform` with
`std::tolower` over the whole string. -/
def to_lower_str (s : List Char) : List Char := s.map to_lower_char

/-- Does `needle` start at the head of `hay`?  (One candidate position of
`std::string::find`.) -/
def matches_at : List Char → List Char → Bool
  | _, [] => true
  | [], _ :: _ => false
  | a :: hs, b :: ns => a == b && matches_at hs ns

/-- Substring search: does `needle` occur contiguously anywhere in `hay`?
This is the semantics of `text_lower.find(trigger_lower) != npos`. -/
def find_sub : List Char → List Char → Bool
  | [], needle => matches_at [] needle
  | a :: hs, needle => matches_at (a :: hs) needle || find_sub hs needle

/-- `contains_trigger` (stt_lib.cpp lines 171-175): lowercase both strings and
test substring containment. -/
def contains_trigger (text trigger : List Char) : Bool :=
  find_sub (to_lower_str text) (to_lower_str trigger)

/-- Outcome of one inference call inside `listen_for`: whether
`process_audio_with_retry` reported success, and the emitted segment texts
(`whisper_full_get_segment_text`) when it did. -/
structure InferenceOutcome where
  ok : Bool
  segments : List (List Char)

/-- The segment loop of `STTStream::listen_for` (stt_lib.cpp lines 491-519):
walk the emitted segments in order and return `true` at the first one whose
text contains the trigger. -/
def scan_segments (trigger : List Char) : List (List Char) → Bool
  | [] => false
  | seg :: rest =>
    if contains_trigger seg trigger then true else scan_segments trigger rest

/-- Return value of a `listen_for` cycle that reached inference (stt_lib.cpp
lines 469-519): `false` when all retry attempts failed, otherwise the result
of scanning the emitted segments for the trigger. -/
def listen_cycle_result (out : InferenceOutcome) (trigger : List Char) : Bool :=
  if out.ok then scan_segments trigger out.segments else false

/-- The fixed-step polling loop of `STTStream::listen_for` (stt_lib.cpp lines
371-396), abstracted over the sequence of buffer contents successive
`audio->get(step_ms, ...)` drains observe: a chunk above `2*n_samples_step`
is discarded (the device buffer is cleared) and polling retries; a chunk of at
least `n_samples_step` is consumed; smaller chunks mean waiting for more
audio.  Returns the consumed chunk, or `none` if the poll sequence runs out. -/
def drain_loop (n_samples_step : ℕ) : List (List ℚ) → Option (List ℚ)
  | [] => none
  | c :: rest =>
    if 2 * n_samples_step < c.length then drain_loop n_samples_step rest
    else if n_samples_step ≤ c.length then some c
    else drain_loop n_samples_step rest

/-! ## Helper lemmas -/

lemma adapt_threshold_bounds (s : VADState)
    (h : 10 ≤ s.recent_energies.length) :
    min_threshold ≤ (adapt_threshold s).threshold ∧
      (adapt_threshold s).threshold ≤ max_threshold := by
  unfold adapt_threshold
  rw [if_neg (by omega)]
  refine ⟨le_max_left _ _, ?_⟩
  exact max_le (by norm_num [min_threshold, max_threshold]) (min_le_left _ _)

lemma detect_snd_of_fires (vadFn : List ℚ → ℚ → Bool) (eth : ℚ) (s : VADState)
    (w : List ℚ) (h : adaptation_fires eth s w = true) :
    min_threshold ≤ (detect vadFn eth s w).2.threshold ∧
      (detect vadFn eth s w).2.threshold ≤ max_threshold := by
  unfold adaptation_fires at h
  rw [Bool.and_eq_true, decide_eq_true_eq, decide_eq_true_eq] at h
  unfold detect
  rw [if_pos h.1]
  exact adapt_threshold_bounds _ h.2

lemma detect_run_append (vadFn : List ℚ → ℚ → Bool) (eth : ℚ) (s : VADState)
    (l1 l2 : List (List ℚ)) :
    detect_run vadFn eth s (l1 ++ l2) =
      ((detect_run vadFn eth s l1).1 ++
        (detect_run vadFn eth (detect_run vadFn eth s l1).2 l2).1,
       (detect_run vadFn eth (detect_run vadFn eth s l1).2 l2).2) := by
  induction l1 generalizing s with
  | nil => simp [detect_run]
  | cons w ws ih => simp [detect_run, ih]

lemma take_succ_getD (ws : List (List ℚ)) (i : ℕ) (hi : i < ws.length) :
    ws.take (i + 1) = ws.take i ++ [ws.getD i []] := by
  induction ws generalizing i with
  | nil => simp at hi
  | cons w rest ih =>
    cases i with
    | zero => simp
    | succ j =>
      simp only [List.take_succ_cons, List.getD_cons_succ]
      rw [ih j (by simpa using hi)]
      simp

lemma foldl_sq (l : List ℚ) (c : ℚ) :
    l.foldl (fun acc x => acc + x * x) c = c + (l.map fun x => x * x).sum := by
  induction l generalizing c with
  | nil => simp
  | cons x xs ih => simp [ih, add_assoc]

lemma energy_eq (w : List ℚ) :
    energy_of w = ((w.map fun x => x * x).sum) / (w.length : ℚ) := by
  unfold energy_of
  rw [foldl_sq]
  simp

lemma insertSorted_length (x : ℚ) (l : List ℚ) :
    (insertSorted x l).length = l.length + 1 := by
  induction l with
  | nil => rfl
  | cons y ys ih =>
    simp only [insertSorted]
    split
    · simp
    · simp [ih]

lemma sortList_length (l : List ℚ) : (sortList l).length = l.length := by
  induction l with
  | nil => rfl
  | cons x xs ih => simp [sortList, insertSorted_length, ih]

lemma record_eq_drop (h : List ℚ) (e : ℚ) (hle : h.length ≤ history_size) :
    record_energy h e = (h ++ [e]).drop ((h ++ [e]).length - 50) := by
  simp only [record_energy, history_size] at hle ⊢
  by_cases hc : 50 < (h ++ [e]).length
  · rw [if_pos hc]
    have h1 : (h ++ [e]).length - 50 = 1 := by
      simp only [List.length_append, List.length_singleton] at hc ⊢
      omega
    rw [h1]
  · rw [if_neg hc]
    have h0 : (h ++ [e]).length - 50 = 0 := by omega
    rw [h0, List.drop_zero]

lemma record_length_le (h : List ℚ) (e : ℚ) (hle : h.length ≤ history_size) :
    (record_energy h e).length ≤ history_size := by
  rw [record_eq_drop h e hle]
  simp only [history_size] at hle ⊢
  simp only [List.length_drop, List.length_append, List.length_singleton]
  omega

lemma adapt_recent (s : VADState) :
    (adapt_threshold s).recent_energies = s.recent_energies := by
  unfold adapt_threshold
  split <;> rfl

lemma detect_fst (vadFn : List ℚ → ℚ → Bool) (eth : ℚ) (s : VADState)
    (w : List ℚ) : (detect vadFn eth s w).1 = vadFn w s.threshold := by
  simp only [detect]
  split <;> rfl

/-! ## Claim theorems -/

/-- Claim C2: for every sequence of audio windows fed to
`AdaptiveVAD::detect`, after every adaptation step the detector's threshold
lies within `[min_threshold, max_threshold] = [0.3, 0.8]`. -/
theorem C2_threshold_bounds (vadFn : List ℚ → ℚ → Bool) (eth : ℚ)
    (s : VADState) (ws : List (List ℚ)) (i : ℕ) (hi : i < ws.length)
    (hfire : adaptation_fires eth (detect_run vadFn eth s (ws.take i)).2
        (ws.getD i []) = true) :
    min_threshold ≤ (detect_run vadFn eth s (ws.take (i + 1))).2.threshold ∧
      (detect_run vadFn eth s (ws.take (i + 1))).2.threshold ≤ max_threshold := by
  rw [take_succ_getD ws i hi, detect_run_append]
  simp only [detect_run]
  exact detect_snd_of_fires _ _ _ _ hfire

theorem C2_threshold_bounds_witness :
    min_threshold ≤ (detect_run (fun _ _ => true) 0 ⟨3/5, List.replicate 9 1⟩
        ([[1]].take 1)).2.threshold ∧
      (detect_run (fun _ _ => true) 0 ⟨3/5, List.replicate 9 1⟩
        ([[1]].take 1)).2.threshold ≤ max_threshold :=
  C2_threshold_bounds (fun _ _ => true) 0 ⟨3/5, List.replicate 9 1⟩ [[1]] 0
    (by decide)
    (by norm_num [adaptation_fires, detect_run, energy_of, record_energy,
      history_size])

/-- Claim C3: `AdaptiveVAD::detect` computes the window's mean squared energy;
exactly when it exceeds `energy_floor` it records it into the capped history
(capacity 50, oldest evicted) and, only once at least 10 entries exist, sets
the threshold to the clamped moving average of the index-based quartile
target; otherwise history and threshold are unchanged.  Stated as equality
with `detect_according_to_spec`, plus the capacity bound. -/
theorem C3_detect_matches_spec (vadFn : List ℚ → ℚ → Bool) (eth : ℚ)
    (s : VADState) (w : List ℚ) (_hw : w ≠ [])
    (hlen : s.recent_energies.length ≤ history_size) :
    detect vadFn eth s w = detect_according_to_spec vadFn eth s w ∧
      (detect vadFn eth s w).2.recent_energies.length ≤ history_size := by
  constructor
  · simp only [detect, detect_according_to_spec]
    rw [← energy_eq]
    by_cases hcond : eth < energy_of w
    · rw [if_pos hcond, if_pos hcond,
        ← record_eq_drop s.recent_energies (energy_of w) hlen]
      unfold adapt_threshold
      set r := record_energy s.recent_energies (energy_of w) with hr
      by_cases h10 : r.length < 10
      · rw [if_pos h10, if_neg (by omega : ¬ 10 ≤ r.length)]
      · rw [if_neg h10, if_pos (by omega : 10 ≤ r.length)]
        simp only [clamp, min_threshold, max_threshold, adaptation_rate,
          sortList_length, Prod.mk.injEq, VADState.mk.injEq]
        refine ⟨trivial, ?_, trivial⟩
        congr 1
        congr 1
        ring
    · rw [if_neg hcond, if_neg hcond]
  · simp only [detect]
    split
    · simpa [adapt_recent] using
        record_length_le s.recent_energies (energy_of w) hlen
    · exact hlen

theorem C3_detect_matches_spec_witness :
    detect (fun _ _ => true) 0 ⟨3/5, List.replicate 9 1⟩ [1] =
        detect_according_to_spec (fun _ _ => true) 0 ⟨3/5, List.replicate 9 1⟩ [1] ∧
      (detect (fun _ _ => true) 0 ⟨3/5, List.replicate 9 1⟩
        [1]).2.recent_energies.length ≤ history_size :=
  C3_detect_matches_spec (fun _ _ => true) 0 ⟨3/5, List.replicate 9 1⟩ [1]
    (by decide) (by decide)

/-- Claim C10: the boolean returned by the i-th `detect` call in a sequence is
computed from the threshold held before that call's own energy recording and
adaptation, i.e. the threshold produced by calls 1..i-1, plus the current
window. -/
theorem C10_decision_pre_state (vadFn : List ℚ → ℚ → Bool) (eth : ℚ)
    (s : VADState) (ws : List (List ℚ)) (i : ℕ) (hi : i < ws.length) :
    (detect_run vadFn eth s ws).1.getD i false =
      vadFn (ws.getD i []) (detect_run vadFn eth s (ws.take i)).2.threshold := by
  induction ws generalizing s i with
  | nil => simp at hi
  | cons w rest ih =>
    cases i with
    | zero =>
      simp only [detect_run, List.getD_cons_zero, List.take_zero, detect_fst]
    | succ j =>
      simp only [detect_run, List.getD_cons_succ, List.take_succ_cons]
      exact ih _ j (by simpa using hi)

lemma build_window_length (old new : List ℚ) (k l : ℕ) :
    (build_window old new k l).length =
      new.length + min old.length (k + l - new.length) := by
  simp only [build_window, List.length_append, List.length_drop]
  omega

/-- Claim C1 (amended): on a completed fixed-step capture cycle the
constructed window has size
`|incoming_chunk| + min(|previous_tail|, max(0, keep + len - |incoming_chunk|))`
— the source clamps the subtraction at zero with `std::max(0, ...)`,
which the claim's formula omits. -/
theorem C1_window_length_amended (old new : List ℚ)
    (n_samples_keep n_samples_len : ℕ) :
    ((build_window old new n_samples_keep n_samples_len).length : ℤ) =
      (new.length : ℤ) +
        min (old.length : ℤ)
          (max 0 ((n_samples_keep : ℤ) + (n_samples_len : ℤ) -
            (new.length : ℤ))) := by
  have h := build_window_length old new n_samples_keep n_samples_len
  omega

/-- Claim C1 as stated fails on the code: with `keep_ms = 0`,
`step_ms = 1000`, `length_ms = 1000` (configuration invariant holds), i.e.
`n_samples_keep = 0`, `n_samples_len = n_samples_step = 16000`, a drained
chunk of 20000 samples (inside the accepted band
`[n_samples_step, 2*n_samples_step]`) and a 100-sample previous tail, the
window built by the code has 20000 samples while the claimed formula
`|chunk| + min(|tail|, keep + len - |chunk|)` evaluates to `16000`. -/
theorem C1_window_length_counterexample :
    ((build_window (List.replicate 100 (0 : ℚ)) (List.replicate 20000 (0 : ℚ))
        0 16000).length : ℤ) ≠
      ((List.replicate 20000 (0 : ℚ)).length : ℤ) +
        min ((List.replicate 100 (0 : ℚ)).length : ℤ)
          ((0 : ℤ) + 16000 - ((List.replicate 20000 (0 : ℚ)).length : ℤ)) := by
  have h := build_window_length (List.replicate 100 (0 : ℚ))
    (List.replicate 20000 (0 : ℚ)) 0 16000
  simp only [List.length_replicate] at h ⊢
  omega

lemma retry_loop_stop (engine : ℕ → ℤ) (m a : ℕ) (h : ¬ a < m) :
    retry_loop engine m a = ⟨false, a, []⟩ := by
  unfold retry_loop
  rw [if_neg h]

lemma retry_loop_first_success (engine : ℕ → ℤ) (m k : ℕ) (hk : k < m)
    (hk0 : engine k = 0) :
    ∀ d a, m - a ≤ d → a ≤ k → (∀ i, a ≤ i → i < k → engine i ≠ 0) →
      retry_loop engine m a =
        ⟨true, k + 1, (List.range' (a + 1) (k - a)).map fun j => 100 * j⟩ := by
  intro d
  induction d with
  | zero => intro a hd hak _; omega
  | succ n ih =>
    intro a hd hak hfail
    unfold retry_loop
    rw [if_pos (by omega : a < m)]
    by_cases hae : a = k
    · subst hae
      rw [if_pos hk0]
      simp
    · have hne : engine a ≠ 0 := hfail a le_rfl (by omega)
      rw [if_neg hne, if_pos (by omega : a < m - 1)]
      rw [ih (a + 1) (by omega) (by omega) (fun i hi1 hi2 => hfail i (by omega) hi2)]
      simp only [with_sleep]
      have hr : k - a = (k - (a + 1)) + 1 := by omega
      rw [hr, List.range'_succ]
      simp

lemma retry_loop_all_fail (engine : ℕ → ℤ) (m : ℕ) :
    ∀ d a, m - a ≤ d → a < m → (∀ i, a ≤ i → i < m → engine i ≠ 0) →
      retry_loop engine m a =
        ⟨false, m, (List.range' (a + 1) (m - 1 - a)).map fun j => 100 * j⟩ := by
  intro d
  induction d with
  | zero => intro a hd ham _; omega
  | succ n ih =>
    intro a hd ham hfail
    unfold retry_loop
    rw [if_pos ham, if_neg (hfail a le_rfl ham)]
    by_cases h3 : a < m - 1
    · rw [if_pos h3]
      rw [ih (a + 1) (by omega) (by omega) (fun i hi1 hi2 => hfail i (by omega) hi2)]
      simp only [with_sleep]
      have hr : m - 1 - a = (m - 1 - (a + 1)) + 1 := by omega
      rw [hr, List.range'_succ]
      simp
    · rw [if_neg h3]
      rw [retry_loop_stop engine m (a + 1) (by omega)]
      have h0 : m - 1 - a = 0 := by omega
      have ham1 : a + 1 = m := by omega
      rw [h0, ham1]
      simp

/-- Claim C4: `process_audio_with_retry` makes at most `max_retry_attempts`
engine calls per window; it succeeds as soon as a call returns result code 0
(first success at zero-based attempt `k` means exactly `k + 1` calls); it
returns `false` exactly when all `max_retry_attempts` calls returned
non-zero; and it sleeps `100 ms * attempt_number` between consecutive
attempts. -/
theorem C4_retry_contract (engine : ℕ → ℤ) (m : ℕ) :
    (process_audio_with_retry engine m).calls ≤ m ∧
    ((process_audio_with_retry engine m).success = false ↔
      ∀ i, i < m → engine i ≠ 0) ∧
    (∀ k, k < m → (∀ i, i < k → engine i ≠ 0) → engine k = 0 →
      process_audio_with_retry engine m =
        ⟨true, k + 1, (List.range' 1 k).map fun j => 100 * j⟩) ∧
    ((∀ i, i < m → engine i ≠ 0) →
      process_audio_with_retry engine m =
        ⟨false, m, (List.range' 1 (m - 1)).map fun j => 100 * j⟩) := by
  have hsucc : ∀ k, k < m → (∀ i, i < k → engine i ≠ 0) → engine k = 0 →
      process_audio_with_retry engine m =
        ⟨true, k + 1, (List.range' 1 k).map fun j => 100 * j⟩ := by
    intro k hk hfail hk0
    have h := retry_loop_first_success engine m k hk hk0 m 0 (by omega)
      (by omega) (fun i _ hi2 => hfail i hi2)
    simpa using h
  have hallf : (∀ i, i < m → engine i ≠ 0) →
      process_audio_with_retry engine m =
        ⟨false, m, (List.range' 1 (m - 1)).map fun j => 100 * j⟩ := by
    intro hfail
    rcases Nat.eq_zero_or_pos m with hm | hm
    · subst hm
      rw [process_audio_with_retry, retry_loop_stop engine 0 0 (by omega)]
      simp
    · have h := retry_loop_all_fail engine m m 0 (by omega) hm
        (fun i _ hi2 => hfail i hi2)
      simpa using h
  refine ⟨?_, ?_, hsucc, hallf⟩
  · by_cases hall : ∀ i, i < m → engine i ≠ 0
    · rw [hallf hall]
    · push_neg at hall
      obtain ⟨i0, hi0, he0⟩ := hall
      have hex : ∃ i, i < m ∧ engine i = 0 := ⟨i0, hi0, he0⟩
      set k := Nat.find hex with hk
      obtain ⟨hkm, hke⟩ := Nat.find_spec hex
      rw [hsucc k hkm (fun i hik => by
        have := Nat.find_min hex hik
        intro hcontra
        exact this ⟨by omega, hcontra⟩) hke]
      exact hkm
  · constructor
    · intro hf
      by_contra hall
      push_neg at hall
      obtain ⟨i0, hi0, he0⟩ := hall
      have hex : ∃ i, i < m ∧ engine i = 0 := ⟨i0, hi0, he0⟩
      obtain ⟨hkm, hke⟩ := Nat.find_spec hex
      rw [hsucc (Nat.find hex) hkm (fun i hik => by
        have := Nat.find_min hex hik
        intro hcontra
        exact this ⟨by omega, hcontra⟩) hke] at hf
      simp at hf
    · intro hall
      rw [hallf hall]

theorem C4_retry_contract_witness :
    process_audio_with_retry (fun i => if i = 1 then 0 else 1) 3 =
      ⟨true, 2, [100]⟩ := by
  have h := (C4_retry_contract (fun i => if i = 1 then 0 else 1) 3).2.2.1 1
    (by decide) (by decide) (by decide)
  simpa using h

/-- Claim C5: `prune_context_tokens` is the identity when the token count is
within the bound (hence idempotent), and otherwise drops exactly the oldest
excess tokens from the front, preserving the order of the remaining
`max_tokens` tokens. -/
theorem C5_prune_contract (t : List ℤ) (m : ℕ) :
    (t.length ≤ m → prune_context_tokens t m = t) ∧
    prune_context_tokens (prune_context_tokens t m) m =
      prune_context_tokens t m ∧
    (m < t.length →
      (prune_context_tokens t m).length = m ∧
        t.take (t.length - m) ++ prune_context_tokens t m = t) := by
  have prune_of_le : ∀ (u : List ℤ), u.length ≤ m → prune_context_tokens u m = u := by
    intro u hu
    unfold prune_context_tokens
    rw [if_pos hu]
  have prune_of_gt : ∀ (u : List ℤ), ¬ u.length ≤ m →
      prune_context_tokens u m = u.drop (u.length - m) := by
    intro u hu
    unfold prune_context_tokens
    rw [if_neg hu]
  refine ⟨prune_of_le t, ?_, ?_⟩
  · by_cases h : t.length ≤ m
    · rw [prune_of_le t h]
      exact prune_of_le t h
    · rw [prune_of_gt t h]
      refine prune_of_le _ ?_
      simp only [List.length_drop]
      omega
  · intro h
    have hgt : ¬ t.length ≤ m := by omega
    rw [prune_of_gt t hgt]
    refine ⟨?_, List.take_append_drop _ _⟩
    simp only [List.length_drop]
    omega

theorem C5_prune_contract_witness :
    prune_context_tokens (prune_context_tokens [5, 6, 7] 2) 2 =
        prune_context_tokens [5, 6, 7] 2 ∧
      (prune_context_tokens [5, 6, 7] 2).length = 2 ∧
      ([5, 6, 7] : List ℤ).take 1 ++ prune_context_tokens [5, 6, 7] 2 =
        [5, 6, 7] :=
  ⟨(C5_prune_contract [5, 6, 7] 2).2.1,
    ((C5_prune_contract [5, 6, 7] 2).2.2 (by decide)).1,
    ((C5_prune_contract [5, 6, 7] 2).2.2 (by decide)).2⟩

/-- Claim C6: `pause()` followed by `resume()` with no intervening
`listen_for` leaves the three rolling sample buffers empty, the capture
device's queue cleared, and the `paused` flag false, for every prior state. -/
theorem C6_pause_resume_purges (s : StreamState) :
    (resume_stream (pause_stream s)).pcmf32 = [] ∧
    (resume_stream (pause_stream s)).pcmf32_old = [] ∧
    (resume_stream (pause_stream s)).pcmf32_new = [] ∧
    (resume_stream (pause_stream s)).audio_queue = [] ∧
    (resume_stream (pause_stream s)).paused = false := by
  simp [pause_stream, resume_stream]

lemma matches_at_iff (hay needle : List Char) :
    matches_at hay needle = true ↔ ∃ t, hay = needle ++ t := by
  induction needle generalizing hay with
  | nil =>
    simp [matches_at]
  | cons b ns ih =>
    cases hay with
    | nil => simp [matches_at]
    | cons a hs =>
      simp only [matches_at, Bool.and_eq_true, beq_iff_eq, ih,
        List.cons_append, List.cons.injEq]
      constructor
      · rintro ⟨rfl, t, rfl⟩
        exact ⟨t, rfl, rfl⟩
      · rintro ⟨t, rfl, h2⟩
        exact ⟨rfl, t, h2⟩

lemma find_sub_iff (hay needle : List Char) :
    find_sub hay needle = true ↔ ∃ s t, hay = s ++ needle ++ t := by
  induction hay with
  | nil =>
    rw [find_sub, matches_at_iff]
    constructor
    · rintro ⟨t, ht⟩
      exact ⟨[], t, by simpa using ht⟩
    · rintro ⟨s, t, hst⟩
      rw [List.append_assoc] at hst
      rcases List.append_eq_nil.mp hst.symm with ⟨rfl, h2⟩
      exact ⟨t, by simpa using hst⟩
  | cons a hs ih =>
    simp only [find_sub, Bool.or_eq_true, matches_at_iff, ih]
    constructor
    · rintro (⟨t, ht⟩ | ⟨s, t, hst⟩)
      · exact ⟨[], t, by simpa using ht⟩
      · exact ⟨a :: s, t, by simp [hst]⟩
    · rintro ⟨s, t, hst⟩
      cases s with
      | nil => exact Or.inl ⟨t, by simpa using hst⟩
      | cons x s2 =>
        simp only [List.cons_append, List.cons.injEq] at hst
        exact Or.inr ⟨s2, t, hst.2⟩

lemma contains_trigger_iff (text trigger : List Char) :
    contains_trigger text trigger = true ↔
      ∃ s t, to_lower_str text = s ++ to_lower_str trigger ++ t := by
  unfold contains_trigger
  exact find_sub_iff _ _

lemma scan_segments_iff (trigger : List Char) (segs : List (List Char)) :
    scan_segments trigger segs = true ↔
      ∃ seg ∈ segs, contains_trigger seg trigger = true := by
  induction segs with
  | nil => simp [scan_segments]
  | cons seg rest ih =>
    simp only [scan_segments]
    by_cases hc : contains_trigger seg trigger = true
    · rw [if_pos hc]
      constructor
      · intro _
        exact ⟨seg, by simp, hc⟩
      · intro _
        rfl
    · rw [if_neg hc, ih]
      constructor
      · rintro ⟨s2, hm, hcon⟩
        exact ⟨s2, by simp [hm], hcon⟩
      · rintro ⟨s2, hm, hcon⟩
        rcases List.mem_cons.mp hm with rfl | hm2
        · exact absurd hcon hc
        · exact ⟨s2, hm2, hcon⟩

lemma contains_trigger_nil (text : List Char) :
    contains_trigger text [] = true := by
  unfold contains_trigger to_lower_str
  simp only [List.map_nil]
  cases List.map to_lower_char text with
  | nil => rfl
  | cons a hs => simp [find_sub, matches_at]

/-- Claim C7: on a cycle whose inference call succeeds, `listen_for` reports
a match exactly when some emitted segment's text contains the trigger phrase
as a case-insensitive plain substring. -/
theorem C7_trigger_match (out : InferenceOutcome) (trigger : List Char)
    (hok : out.ok = true) :
    listen_cycle_result out trigger = true ↔
      ∃ seg ∈ out.segments, ∃ s t,
        to_lower_str seg = s ++ to_lower_str trigger ++ t := by
  unfold listen_cycle_result
  rw [if_pos hok, scan_segments_iff]
  constructor
  · rintro ⟨seg, hm, hc⟩
    exact ⟨seg, hm, (contains_trigger_iff seg trigger).mp hc⟩
  · rintro ⟨seg, hm, hdec⟩
    exact ⟨seg, hm, (contains_trigger_iff seg trigger).mpr hdec⟩

theorem C7_trigger_match_witness :
    listen_cycle_result ⟨true, [ "please Start Navigation now".toList ]⟩
      "start navigation".toList = true := by
  rw [C7_trigger_match _ _ rfl]
  refine ⟨ "please Start Navigation now".toList, by simp, ?_⟩
  exact ⟨ "please ".toList, " now".toList, by decide⟩

/-- Claim C8: in fixed-step mode, a drained chunk above `2*n_samples_step`
samples makes the loop clear the capture buffer and retry the poll, and any
chunk the loop does consume — hence the incoming chunk of any window
submitted to inference — holds between `n_samples_step` and
`2*n_samples_step` samples. -/
theorem C8_backpressure (nstep : ℕ) :
    (∀ (c : List ℚ) (rest : List (List ℚ)), 2 * nstep < c.length →
      drain_loop nstep (c :: rest) = drain_loop nstep rest) ∧
    (∀ (polls : List (List ℚ)) (c : List ℚ), drain_loop nstep polls = some c →
      nstep ≤ c.length ∧ c.length ≤ 2 * nstep) := by
  constructor
  · intro c rest hc
    conv_lhs => rw [drain_loop]
    rw [if_pos hc]
  · intro polls
    induction polls with
    | nil =>
      intro c hc
      simp [drain_loop] at hc
    | cons c0 rest ih =>
      intro c hc
      unfold drain_loop at hc
      by_cases h1 : 2 * nstep < c0.length
      · rw [if_pos h1] at hc
        exact ih c hc
      · rw [if_neg h1] at hc
        by_cases h2 : nstep ≤ c0.length
        · rw [if_pos h2] at hc
          obtain rfl := Option.some.inj hc
          exact ⟨h2, by omega⟩
        · rw [if_neg h2] at hc
          exact ih c hc

theorem C8_backpressure_witness :
    drain_loop 2 [[1, 1, 1, 1, 1], [1, 1, 1]] = drain_loop 2 [[1, 1, 1]] ∧
      (2 ≤ ([1, 1, 1] : List ℚ).length ∧ ([1, 1, 1] : List ℚ).length ≤ 2 * 2) :=
  ⟨(C8_backpressure 2).1 [1, 1, 1, 1, 1] [[1, 1, 1]] (by decide),
   (C8_backpressure 2).2 [[1, 1, 1]] [1, 1, 1] rfl⟩

/-- Claim C9: the empty trigger is a substring of every text, so
`contains_trigger` accepts it on any text and a successful cycle emitting at
least one segment always reports a match for the empty trigger. -/
theorem C9_empty_trigger (text : List Char) (out : InferenceOutcome)
    (hok : out.ok = true) (hne : out.segments ≠ []) :
    contains_trigger text [] = true ∧ listen_cycle_result out [] = true := by
  refine ⟨contains_trigger_nil text, ?_⟩
  unfold listen_cycle_result
  rw [if_pos hok]
  cases hseg : out.segments with
  | nil => exact absurd hseg hne
  | cons seg rest =>
    simp [scan_segments, contains_trigger_nil seg]

theorem C9_empty_trigger_witness :
    contains_trigger "anything at all".toList [] = true ∧
      listen_cycle_result ⟨true, [ "hello".toList ]⟩ [] = true :=
  C9_empty_trigger "anything at all".toList ⟨true, [ "hello".toList ]⟩ rfl
    (by simp)

theorem C10_decision_pre_state_witness :
    (detect_run (fun _ _ => false) 0 ⟨3/5, []⟩ [[1], [2]]).1.getD 1 false =
      (fun (_ : List ℚ) (_ : ℚ) => false) ([[1], [2]].getD 1 [])
        (detect_run (fun _ _ => false) 0 ⟨3/5, []⟩
          ([[1], [2]].take 1)).2.threshold :=
  C10_decision_pre_state (fun _ _ => false) 0 ⟨3/5, []⟩ [[1], [2]] 1 (by decide)

end Stt
